import Mathlib

/-!
Verification development for `dispersion_calc.py` (class `DispersionCalculator`):
a shallow embedding of the pulse-generation, material-propagation and
pulse-analysis routines, with theorems settling the specification claims.

Modelling conventions:
* numpy float64 arrays are embedded as `List ℝ` / `List ℂ` (exact real
  arithmetic; floating-point rounding is not modelled);
* numpy NaN ("undefined") values are embedded as `Option` `none` where the
  code's control flow depends on them (refractive-index lookups, masked
  phase samples, the NaN pulse-duration result);
* a Python exception escaping a method is embedded as `Except.error`;
* integer division `shape[0] / 2` follows the Python 2 semantics the 2017
  source was written for (floor division on ints);
* the scipy `interp1d` interpolants stored in the materials dict
  (`bounds_error=False, fill_value=nan`) are modelled by the `Material`
  structure: a characterized angular-frequency band `[w_min, w_max]`
  outside of which the lookup is undefined (NaN), and an arbitrary real
  interpolant inside the band.  No claim depends on the concrete Sellmeier
  values, so the catalog contents are carried abstractly in the state.
-/

noncomputable section

open Real Complex

/-- An array built from an index function, like a numpy vector expression:
`arrOf n f` is the length-`n` array whose `i`-th entry is `f i`. -/
def arrOf {α : Type} (n : ℕ) (f : ℕ → α) : List α :=
  (List.range n).map f

theorem length_arrOf {α : Type} (n : ℕ) (f : ℕ → α) : (arrOf n f).length = n := by
  simp [arrOf]

theorem getD_arrOf {α : Type} {n i : ℕ} (f : ℕ → α) (d : α) (h : i < n) :
    (arrOf n f).getD i d = f i := by
  rw [arrOf, List.getD_eq_getElem?_getD]
  simp [List.getElem?_range, h]

theorem getD_arrOf_ge {α : Type} {n i : ℕ} (f : ℕ → α) (d : α) (h : n ≤ i) :
    (arrOf n f).getD i d = d :=
  List.getD_eq_default _ _ (by simpa [length_arrOf] using h)

/-- `np.sign` on a real number. -/
def npsign (x : ℝ) : ℝ :=
  if 0 < x then 1 else if x < 0 then -1 else 0

/-- `np.diff`: adjacent differences, `out[i] = v[i+1] - v[i]`. -/
def npdiff (v : List ℝ) : List ℝ :=
  arrOf (v.length - 1) (fun i => v.getD (i + 1) 0 - v.getD i 0)

theorem length_npdiff (v : List ℝ) : (npdiff v).length = v.length - 1 :=
  length_arrOf _ _

theorem getD_npdiff {v : List ℝ} {i : ℕ} (h : i < v.length - 1) :
    (npdiff v).getD i 0 = v.getD (i + 1) 0 - v.getD i 0 :=
  getD_arrOf _ _ h

/-- `np.roll v sh`: circular shift, `out[i] = v[(i - sh) mod n]`
(numpy semantics for an integer shift of a 1-D array). -/
def nproll {α : Type} (v : List α) (d : α) (sh : ℤ) : List α :=
  arrOf v.length (fun i => v.getD (((i : ℤ) - sh)% (v.length : ℤ)).toNat d)

theorem length_nproll {α : Type} (v : List α) (d : α) (sh : ℤ) :
    (nproll v d sh).length = v.length :=
  length_arrOf _ _

/-- `np.fft.fftshift`: circular shift by `n // 2`, reordering the natural
transform indexing to the centered (zero-frequency-middle) ordering. -/
def fftshift {α : Type} (v : List α) (d : α) : List α :=
  nproll v d (v.length / 2)

/-- `np.fft.fftfreq n d`: sample frequencies `[0, 1, …, (n-1)/2, -(n/2), …, -1] / (n·d)`. -/
def fftfreq (n : ℕ) (d : ℝ) : List ℝ :=
  arrOf n (fun i => (if i < (n + 1) / 2 then (i : ℝ) else (i : ℝ) - n) / (n * d))

/-- `np.linspace a b n` (with the default `endpoint=True`):
`n` evenly spaced samples from `a` to `b` inclusive. -/
def linspace (a b : ℝ) (n : ℕ) : List ℝ :=
  arrOf n (fun i => if n ≤ 1 then a else a + i * ((b - a) / (n - 1)))

/-- `np.fft.fft`: unnormalized forward transform `X[k] = Σ_j v[j]·e^{-2πi·jk/n}`. -/
def npfft (v : List ℂ) : List ℂ :=
  arrOf v.length (fun k =>
    ∑ j ∈ Finset.range v.length,
      v.getD j 0 * Complex.exp (-(2 * (π : ℂ) * I) * j * k / v.length))

/-- `np.fft.ifft`: inverse transform `x[j] = (1/n)·Σ_k v[k]·e^{2πi·jk/n}`. -/
def npifft (v : List ℂ) : List ℂ :=
  arrOf v.length (fun j =>
    (∑ k ∈ Finset.range v.length,
      v.getD k 0 * Complex.exp (2 * (π : ℂ) * I * j * k / v.length)) / v.length)

theorem length_npfft (v : List ℂ) : (npfft v).length = v.length := length_arrOf _ _

theorem length_npifft (v : List ℂ) : (npifft v).length = v.length := length_arrOf _ _

/-- `np.argmax`: index of the first maximal entry (`0` on the empty array,
which numpy instead rejects — the guarded callers never reach that case). -/
def argmax (v : List ℝ) : ℕ :=
  (List.range v.length).foldl (fun best i => if v.getD best 0 < v.getD i 0 then i else best) 0

/-- `np.argmax` as called on a possibly-empty array: numpy raises
`ValueError` on an empty input, embedded as `none`. -/
def argmaxE (v : List ℝ) : Option ℕ :=
  if v.length = 0 then none else some (argmax v)

/-- `np.max` of a (nonempty) array; `0` for the empty array. -/
def listMax : List ℝ → ℝ
  | [] => 0
  | x :: xs => xs.foldl max x

/-- Speed of light `self.c = 299792458.0` (SI). -/
def c_light : ℝ := 299792458

/-- A materials-dict entry: a scipy `interp1d` refractive-index interpolant
built with `bounds_error=False, fill_value=np.nan`.  It is characterized on
the angular-frequency band `[w_min, w_max]` (the sampled `2πc/λ` range for
`λ ∈ [200 nm, 2000 nm]`) and evaluates to NaN outside it; the interpolated
values inside the band are carried as an abstract function `n_fun`, since
no claim depends on the concrete Sellmeier coefficients. -/
structure Material where
  w_min : ℝ
  w_max : ℝ
  n_fun : ℝ → ℝ

/-- Evaluating the interpolant: a defined index value inside the
characterized band, NaN (`none`) outside it. -/
def Material.lookup (m : Material) (w : ℝ) : Option ℝ :=
  if m.w_min ≤ w ∧ w ≤ m.w_max then some (m.n_fun w) else none

/-- The mutable attribute state of a `DispersionCalculator` instance. -/
structure PulseState where
  /-- `self.N`: number of samples. -/
  N : ℕ
  /-- `self.t_span`. -/
  t_span : ℝ
  /-- `self.l_0`: central wavelength. -/
  l_0 : ℝ
  /-- `self.w_0 = 2πc/l_0`: central angular frequency. -/
  w_0 : ℝ
  /-- `self.dt = t_span / N`. -/
  dt : ℝ
  /-- `self.t`: the time grid. -/
  t : List ℝ
  /-- `self.w`: the centered baseband angular-frequency grid. -/
  w : List ℝ
  /-- `self.E_t`: reference time-domain field (as generated). -/
  E_t : List ℂ
  /-- `self.E_w`: reference frequency-domain field (as generated). -/
  E_w : List ℂ
  /-- `self.E_t_out`: output time-domain field (mutated by propagation). -/
  E_t_out : List ℂ
  /-- `self.E_w_out`: output frequency-domain field (mutated by propagation). -/
  E_w_out : List ℂ
  /-- `self.materials`: the materials dict (`none` = key absent). -/
  materials : String → Option Material
  /-- `self.phase_thr = 0.01`. -/
  phase_thr : ℝ

/-- The Gaussian time constant `tau` of `generate_pulse`:
`fwhm/sqrt(2 ln 2)` for the `'temporal'` duration domain, else
`0.441·l_0²/(fwhm·c)` (every non-`'temporal'` selector takes the
spectral branch; the selector is never validated). -/
def gauss_tau (fwhm l_0 : ℝ) (duration_domain : String) : ℝ :=
  if duration_domain = "temporal" then fwhm / Real.sqrt (2 * Real.log 2)
  else 0.441 * l_0 ^ 2 / (fwhm * c_light)

/-- `self.w = np.fft.fftshift(2π·np.fft.fftfreq(n, d=dt))` (lines 50 and 85). -/
def freqGrid (n : ℕ) (d : ℝ) : List ℝ :=
  fftshift ((fftfreq n d).map (fun f => 2 * π * f)) 0

/-- `generate_pulse(fwhm, l_0, t_span, n, duration_domain)` (lines 62–97).
`n = None` (embedded as `none`) keeps the current `self.N`. -/
def generate_pulse (s : PulseState) (fwhm l_0 t_span : ℝ) (n? : Option ℕ)
    (duration_domain : String) : PulseState :=
  let n := n?.getD s.N
  let tau := gauss_tau fwhm l_0 duration_domain
  let t := linspace (-t_span / 2) (t_span / 2) n
  -- `self.E_t = np.exp(-self.t**2 / tau**2 + ph)` with `ph = 0.0`
  let E_t : List ℂ := t.map (fun tj => ((Real.exp (-tj ^ 2 / tau ^ 2 + 0) : ℝ) : ℂ))
  -- `self.E_w = np.fft.fftshift(np.fft.fft(self.E_t))`
  let E_w := fftshift (npfft E_t) 0
  { s with
    l_0 := l_0
    w_0 := 2 * π * c_light / l_0
    t_span := t_span
    N := n
    dt := t_span / n
    t := t
    w := freqGrid n (t_span / n)
    E_t := E_t
    E_w := E_w
    E_t_out := E_t
    E_w_out := E_w }

/-- The per-sample wavenumber `k_w = (w + w_0)·n(w + w_0)/c` (line 237);
`none` where the index lookup is NaN. -/
def k_of (m : Material) (w_0 wi : ℝ) : Option ℝ :=
  (m.lookup (wi + w_0)).map (fun nv => (wi + w_0) * nv / c_light)

/-- The per-sample transfer function `H_w = exp(-1j·k_w·thickness)` after the
fix-up `H_w[np.isnan(H_w)] = 0` (lines 240–241): an undefined (NaN)
wavenumber yields exactly `0`, never a NaN field sample. -/
def H_of (k? : Option ℝ) (thickness : ℝ) : ℂ :=
  match k? with
  | none => 0
  | some k => Complex.exp (-I * k * thickness)

/-- The transfer-function array of `propagate_material` over the grid
`w + w_0` (lines 237–241). -/
def transferH (wl : List ℝ) (w_0 : ℝ) (m : Material) (thickness : ℝ) : List ℂ :=
  wl.map (fun wi => H_of (k_of m w_0 wi) thickness)

/-- `propagate_material(name, thickness)` (lines 225–243).  A missing dict
key raises `KeyError`, which the method catches and returns, leaving the
state untouched. -/
def propagate_material (s : PulseState) (name : String) (thickness : ℝ) : PulseState :=
  match s.materials name with
  | none => s
  | some m =>
      let H_w := transferH s.w s.w_0 m thickness
      -- `self.E_w_out = H_w * self.E_w_out.copy()`
      let E_w_out' := List.zipWith (· * ·) H_w s.E_w_out
      -- `self.E_t_out = np.fft.ifft(np.fft.fftshift(self.E_w_out))`
      { s with E_w_out := E_w_out', E_t_out := npifft (fftshift E_w_out' 0) }

/-- `reset_propagation()` (lines 245–253): restores the output fields from
the reference fields. -/
def reset_propagation (s : PulseState) : PulseState :=
  { s with E_w_out := s.E_w, E_t_out := s.E_t }

/-- The indices of the large adjacent phase jumps: `np.where(np.abs(np.diff(ph)) > 5.0)[0]`
(lines 281–284 / 352–355), computed once from the original phase array. -/
def bigJumps (ph : List ℝ) : List ℕ :=
  (List.range (npdiff ph).length).filter (fun i => 5 < |(npdiff ph).getD i 0|)

/-- One iteration of the unwrap loop (lines 286–290 / 357–361): at jump
index `ind`, add `2π` to every sample from `ind+1` on if the original
difference there is negative, else subtract `2π` from them. -/
def unwrapStep (d : List ℝ) (acc : List ℝ) (ind : ℕ) : List ℝ :=
  if d.getD ind 0 < 0 then
    arrOf acc.length (fun j => if ind + 1 ≤ j then acc.getD j 0 + 2 * π else acc.getD j 0)
  else
    arrOf acc.length (fun j => if ind + 1 ≤ j then acc.getD j 0 - 2 * π else acc.getD j 0)

/-- The coarse 2π phase unwrap shared by `get_temporal_phase` (lines 278–290)
and `get_spectral_phase` (lines 349–361): the jump locations and signs come
from the adjacent differences of the original, pre-correction array. -/
def unwrap (ph : List ℝ) : List ℝ :=
  (bigJumps ph).foldl (unwrapStep (npdiff ph)) ph

/-- `np.polyval`: Horner evaluation, coefficients highest order first. -/
def polyval (p : List ℝ) (x : ℝ) : ℝ :=
  p.foldl (fun acc cf => acc * x + cf) 0

/-- `np.polyfit xs ys deg`: the least-squares polynomial fit, modelled by
its normal-equations solution `(VᵀV)⁻¹·Vᵀ·ys` for the Vandermonde matrix
`V` of `xs` (numpy computes the same minimizer for full-rank systems).
Coefficients are returned highest order first. -/
def polyfit (xs ys : List ℝ) (deg : ℕ) : List ℝ :=
  let m := deg + 1
  let G : Matrix (Fin m) (Fin m) ℝ :=
    Matrix.of fun i j => ((xs.map (fun x => x ^ ((deg - (i : ℕ)) + (deg - (j : ℕ))))).foldl (· + ·) 0)
  let b : Fin m → ℝ :=
    fun i => (((xs.zip ys).map (fun p => p.1 ^ (deg - (i : ℕ)) * p.2)).foldl (· + ·) 0)
  (List.finRange m).map (G⁻¹.mulVec b)

/-- The common body of `get_temporal_intensity` (lines 255–266) and
`get_spectral_intensity` (lines 312–323), which apply exactly the same
operations to `E_t_out` and `E_w_out` respectively: center the peak by a
circular shift, take the magnitude squared, optionally normalize to peak 1.
Returns `none` (Python `None`) when the field array is empty. -/
def intensityOf (v : List ℂ) (norm : Bool) : Option (List ℝ) :=
  if v.length ≠ 0 then
    let ind := argmax (v.map Complex.abs)
    -- `shift = v.shape[0] / 2 - ind` (Python 2 integer division)
    let sh : ℤ := (v.length / 2 : ℕ) - (ind : ℤ)
    let I_v := (nproll v 0 sh).map (fun z => Complex.abs z ^ 2)
    some (if norm then I_v.map (· / listMax I_v) else I_v)
  else none

/-- `get_temporal_intensity(norm)` (lines 255–266). -/
def get_temporal_intensity (s : PulseState) (norm : Bool) : Option (List ℝ) :=
  intensityOf s.E_t_out norm

/-- `get_spectral_intensity(norm)` (lines 312–323). -/
def get_spectral_intensity (s : PulseState) (norm : Bool) : Option (List ℝ) :=
  intensityOf s.E_w_out norm

/-- NaN-masked elementwise subtraction of a scalar (`none` = NaN). -/
def maskSub (p? q? : Option ℝ) : Option ℝ :=
  match p?, q? with
  | some p, some q => some (p - q)
  | _, _ => none

/-- `get_temporal_phase(linear_comp)` (lines 268–310).  Phase samples where
the field magnitude is below `phase_thr` are masked to NaN (`none`).
Returns `none` (Python `None`) when the field array is empty. -/
def get_temporal_phase (s : PulseState) (linear_comp : Bool) : Option (List (Option ℝ)) :=
  if s.E_t_out.length ≠ 0 then
    let ind := argmax (s.E_t_out.map Complex.abs)
    let sh : ℤ := (s.E_t_out.length / 2 : ℕ) - (ind : ℤ)
    let E_t := nproll s.E_t_out 0 sh
    -- `ph0_ind = np.int(E_t.shape[0] / 2)`
    let ph0_ind := E_t.length / 2
    let ph := unwrap (E_t.map Complex.arg)
    -- `ph0 = ph[ph0_ind]` is read before the NaN masking of lines 295–296
    let ph0 := ph.getD ph0_ind 0
    let phM : List (Option ℝ) :=
      List.zipWith (fun z p => if Complex.abs z < s.phase_thr then none else some p) E_t ph
    some (if linear_comp then
      let pairs := ((List.range phM.length).zip phM).filterMap
        (fun p => p.2.map (fun v => ((p.1 : ℝ), v)))
      let poly := polyfit (pairs.map Prod.fst) (pairs.map Prod.snd) 1
      (List.range phM.length).map (fun j => maskSub (phM.getD j none) (some (polyval poly j)))
    else phM.map (fun p? => maskSub p? (some ph0)))
  else none

/-- `get_spectral_phase(linear_comp)` (lines 325–381).  The guard is
`if self.E_t_out is not None:`, which is always satisfied — the attribute
always holds an ndarray (`np.array([])` before generation) — so on an empty
field the method proceeds to `np.argmax` of an empty array, which raises
`ValueError` (embedded as `Except.error ()`). -/
def get_spectral_phase (s : PulseState) (linear_comp : Bool) : Except Unit (List (Option ℝ)) :=
  match argmaxE (s.E_t_out.map Complex.abs) with
  | none => .error ()
  | some ind =>
    -- `shift = -ind; E_t = np.roll(self.E_t_out, shift)` — peak moved to index 0
    let E_t := nproll s.E_t_out 0 (-(ind : ℤ))
    let Ew0 := fftshift (npfft E_t) 0
    -- `Ew /= abs(Ew).max()`
    let Ew := Ew0.map (fun z => z / ((listMax (Ew0.map Complex.abs) : ℝ) : ℂ))
    let ph0_ind := argmax (Ew.map Complex.abs)
    let ph := unwrap (Ew.map Complex.arg)
    let phM : List (Option ℝ) :=
      List.zipWith (fun z p => if Complex.abs z < s.phase_thr then none else some p) Ew ph
    let ph_out :=
      if linear_comp then
        let pairs := ((List.range phM.length).zip phM).filterMap
          (fun p => p.2.map (fun v => ((p.1 : ℝ), v)))
        let poly := polyfit (pairs.map Prod.fst) (pairs.map Prod.snd) 1
        (List.range phM.length).map (fun j => maskSub (phM.getD j none) (some (polyval poly j)))
      else phM
    -- `ph_out -= ph_out[ph0_ind]` (line 378, in both branches)
    .ok (ph_out.map (fun p? => maskSub p? (ph_out.getD ph0_ind none)))

/-- `get_w()` (lines 432–434): the absolute angular-frequency axis. -/
def get_w (s : PulseState) : List ℝ :=
  s.w.map (· + s.w_0)

/-- `get_t()` (lines 429–430). -/
def get_t (s : PulseState) : List ℝ :=
  s.t

/-- `get_spectral_phase_expansion(orders, prefix)` (lines 383–401): fits a
polynomial to the finite samples of the spectral phase against the scaled
absolute frequency axis.  The `if self.E_t_out is not None` guard is always
satisfied, so an empty field state faults inside `get_spectral_phase`
(the `ValueError` propagates out). -/
def get_spectral_phase_expansion (s : PulseState) (orders : ℕ) (pref : ℝ) :
    Except Unit (List ℝ) :=
  match get_spectral_phase s true with
  | .error e => .error e
  | .ok ph =>
    let pairs := ((get_w s).zip ph).filterMap (fun p => p.2.map (fun v => (p.1 / pref, v)))
    .ok (polyfit (pairs.map Prod.fst) (pairs.map Prod.snd) orders)

/-- `get_pulse_duration(domain)` (lines 403–427): threshold the normalized
intensity trace of the chosen domain at one half; the trace FWHM is the
axis difference between the outermost sign changes of `I - 0.5`, or NaN
(`none`) when fewer than two sign changes exist.  On an empty field state
the intensity is `None` and `I - 0.5` raises `TypeError`
(embedded `Except.error ()`). -/
def get_pulse_duration (s : PulseState) (domain : String) : Except Unit (Option ℝ) :=
  let Iopt := if domain = "temporal" then get_temporal_intensity s true
              else get_spectral_intensity s true
  let x := if domain = "temporal" then get_t s else get_w s
  match Iopt with
  | none => .error ()
  | some Iv =>
    let sg := Iv.map (fun v => npsign (v - 0.5))
    -- `x_ind = np.where(np.diff(np.sign(I - 0.5)))[0]`
    let x_ind := (List.range (npdiff sg).length).filter (fun i => (npdiff sg).getD i 0 ≠ 0)
    if 1 < x_ind.length then
      .ok (some (x.getD (x_ind.getLastD 0) 0 - x.getD (x_ind.headD 0) 0))
    else
      .ok none

/-- The attribute state set up by `__init__` (lines 39–55) just before its
call to `generate_pulse`: the field arrays are still the empty arrays
`np.array([])` of lines 52–55, and the materials dict is still empty
(`generate_materials_dict` runs only afterwards; its concrete interp1d
contents are treated as collaborator data and are not needed by any
claim). -/
def initState : PulseState where
  N := 8192
  t_span := 2e-12
  l_0 := 800e-9
  w_0 := 2 * π * c_light / 800e-9
  dt := 2e-12 / 8192
  t := linspace (-(2e-12) / 2) (2e-12 / 2) 8192
  w := freqGrid 8192 (2e-12 / 8192)
  E_t := []
  E_w := []
  E_t_out := []
  E_w_out := []
  materials := fun _ => none
  phase_thr := 0.01

/-- A sample material whose characterized band is `[1, 2]` (rad/s), used to
instantiate hypotheses at concrete inputs. -/
def mat3 : Material where
  w_min := 1
  w_max := 2
  n_fun := fun _ => 1

/-- A small concrete state whose catalog returns `mat3` for every name:
one frequency sample at baseband `0` with carrier `0` (so the absolute
frequency `0` lies outside `mat3`'s band). -/
def st3 : PulseState :=
  { initState with
    w := [0]
    w_0 := 0
    E_w_out := [5]
    E_t_out := [5]
    materials := fun _ => some mat3 }

theorem propagate_material_unknown {s : PulseState} {name : String} (d : ℝ)
    (h : s.materials name = none) : propagate_material s name d = s := by
  unfold propagate_material
  rw [h]

theorem propagate_material_known {s : PulseState} {name : String} {m : Material} (d : ℝ)
    (h : s.materials name = some m) :
    propagate_material s name d =
      { s with
        E_w_out := List.zipWith (· * ·) (transferH s.w s.w_0 m d) s.E_w_out
        E_t_out := npifft (fftshift (List.zipWith (· * ·) (transferH s.w s.w_0 m d) s.E_w_out) 0) } := by
  unfold propagate_material
  rw [h]

/-- `propagate_material` touches only the two output-field attributes. -/
theorem propagate_material_preserves (s : PulseState) (name : String) (d : ℝ) :
    (propagate_material s name d).E_t = s.E_t ∧
    (propagate_material s name d).E_w = s.E_w ∧
    (propagate_material s name d).w = s.w ∧
    (propagate_material s name d).w_0 = s.w_0 ∧
    (propagate_material s name d).materials = s.materials := by
  unfold propagate_material
  cases s.materials name <;> simp

/-- Folding a list of `propagate_material` calls over a state. -/
def applyProps (s : PulseState) (props : List (String × ℝ)) : PulseState :=
  props.foldl (fun st p => propagate_material st p.1 p.2) s

theorem applyProps_preserves (props : List (String × ℝ)) (s : PulseState) :
    (applyProps s props).E_t = s.E_t ∧ (applyProps s props).E_w = s.E_w := by
  induction props generalizing s with
  | nil => exact ⟨rfl, rfl⟩
  | cons p ps ih =>
      have h := propagate_material_preserves s p.1 p.2
      have h' := ih (propagate_material s p.1 p.2)
      exact ⟨h'.1.trans h.1, h'.2.trans h.2.1⟩

theorem getD_nproll {α : Type} {v : List α} (d : α) (s : ℤ) {i : ℕ} (hi : i < v.length) :
    (nproll v d s).getD i d = v.getD (((i : ℤ) - s)% (v.length : ℤ)).toNat d :=
  getD_arrOf _ _ hi

theorem cexp_two_pi_int (t : ℤ) : Complex.exp (2 * (π : ℂ) * I * t) = 1 := by
  rw [← Complex.exp_int_mul_two_pi_mul_I t]
  congr 1
  ring

theorem sum_cexp_ne {n : ℕ} (hn : 0 < n) {a : ℤ} (ha : ¬ (n : ℤ) ∣ a) :
    ∑ k ∈ Finset.range n, Complex.exp (2 * (π : ℂ) * I * a * k / n) = 0 := by
  have hn' : (n : ℂ) ≠ 0 := Nat.cast_ne_zero.mpr hn.ne'
  have hpi : ((π : ℝ) : ℂ) ≠ 0 := Complex.ofReal_ne_zero.mpr Real.pi_ne_zero
  have h2 : (2 : ℂ) * π * I ≠ 0 := by
    simp [hpi, Complex.I_ne_zero]
  set z := Complex.exp (2 * (π : ℂ) * I * a / n) with hzdef
  have hzk : ∀ k : ℕ, Complex.exp (2 * (π : ℂ) * I * a * k / n) = z ^ k := by
    intro k
    rw [hzdef, ← Complex.exp_nat_mul]
    congr 1
    ring
  have hz1 : z ≠ 1 := by
    intro h
    obtain ⟨t, ht⟩ := Complex.exp_eq_one_iff.mp h
    rw [div_eq_iff hn'] at ht
    apply ha
    have hca : (a : ℂ) = t * n := by
      apply mul_left_cancel₀ h2
      linear_combination ht
    have hat : a = t * n := by exact_mod_cast hca
    exact ⟨t, by rw [hat, mul_comm]⟩
  have hzn : z ^ n = 1 := by
    rw [← Complex.exp_nat_mul]
    have harg : (n : ℂ) * (2 * (π : ℂ) * I * a / n) = 2 * (π : ℂ) * I * a := by
      field_simp
    rw [harg]
    exact cexp_two_pi_int a
  calc ∑ k ∈ Finset.range n, Complex.exp (2 * (π : ℂ) * I * a * k / n)
      = ∑ k ∈ Finset.range n, z ^ k := Finset.sum_congr rfl (fun k _ => hzk k)
    _ = (z ^ n - 1) / (z - 1) := geom_sum_eq hz1 n
    _ = 0 := by rw [hzn]; simp

theorem cexp_add_int_mul (x : ℂ) (t : ℤ) :
    Complex.exp (x + 2 * (π : ℂ) * I * t) = Complex.exp x := by
  rw [Complex.exp_add, cexp_two_pi_int, mul_one]

theorem cexp_roll_term {n : ℕ} (hn : 0 < n) (j m k : ℕ) (s : ℤ) :
    Complex.exp (-(2 * (π : ℂ) * I) * m * ((((k : ℤ) - s)% (n : ℤ)).toNat : ℕ) / n) *
      Complex.exp (2 * (π : ℂ) * I * j * k / n)
    = Complex.exp (2 * (π : ℂ) * I * m * s / n) *
      Complex.exp (2 * (π : ℂ) * I * (((j : ℤ) - m : ℤ) : ℂ) * k / n) := by
  have hn' : (n : ℂ) ≠ 0 := Nat.cast_ne_zero.mpr hn.ne'
  have hnz : (n : ℤ) ≠ 0 := by exact_mod_cast hn.ne'
  have hKint : ((((k : ℤ) - s)% (n : ℤ)).toNat : ℤ)
      = (k : ℤ) - s - n * (((k : ℤ) - s)/ (n : ℤ)) := by
    rw [Int.toNat_of_nonneg (Int.emod_nonneg _ hnz)]
    exact Int.emod_def _ _
  have hKc : (((((k : ℤ) - s)% (n : ℤ)).toNat : ℕ) : ℂ)
      = (k : ℂ) - (s : ℂ) - (n : ℂ) * ((((k : ℤ) - s) / (n : ℤ) : ℤ) : ℂ) := by
    exact_mod_cast congrArg (fun z : ℤ => (z : ℂ)) hKint
  rw [← Complex.exp_add, ← Complex.exp_add]
  have harg : -(2 * (π : ℂ) * I) * m * ((((k : ℤ) - s)% (n : ℤ)).toNat : ℕ) / n
        + 2 * (π : ℂ) * I * j * k / n
      = (2 * (π : ℂ) * I * m * s / n + 2 * (π : ℂ) * I * (((j : ℤ) - m : ℤ) : ℂ) * k / n)
        + 2 * (π : ℂ) * I * (((m : ℤ) * (((k : ℤ) - s)/ (n : ℤ)) : ℤ) : ℂ) := by
    rw [hKc]
    push_cast
    field_simp
    ring
  rw [harg]
  exact cexp_add_int_mul _ _

theorem getD_npifft (w : List ℂ) {j : ℕ} (hj : j < w.length) :
    (npifft w).getD j 0 =
      (∑ k ∈ Finset.range w.length,
        w.getD k 0 * Complex.exp (2 * (π : ℂ) * I * j * k / w.length)) / w.length :=
  getD_arrOf _ _ hj

theorem getD_npfft (v : List ℂ) {k : ℕ} (hk : k < v.length) :
    (npfft v).getD k 0 =
      ∑ j ∈ Finset.range v.length,
        v.getD j 0 * Complex.exp (-(2 * (π : ℂ) * I) * j * k / v.length) :=
  getD_arrOf _ _ hk

/-- The central Fourier identity behind the `ifft(fftshift(...))` steps of
the code: inverting a circularly shifted forward transform recovers the
original samples up to an explicit per-sample phase factor
`e^{2πi·j·s/n}` determined by the shift `s`. -/
theorem npifft_nproll_npfft_getD (v : List ℂ) (s : ℤ) {j : ℕ} (hj : j < v.length) :
    (npifft (nproll (npfft v) 0 s)).getD j 0 =
      Complex.exp (2 * (π : ℂ) * I * j * s / v.length) * v.getD j 0 := by
  have hn : 0 < v.length := lt_of_le_of_lt (Nat.zero_le j) hj
  have hnz : (v.length : ℤ) ≠ 0 := by exact_mod_cast hn.ne'
  have hn' : (v.length : ℂ) ≠ 0 := Nat.cast_ne_zero.mpr hn.ne'
  have hW : (nproll (npfft v) 0 s).length = v.length := by
    rw [length_nproll, length_npfft]
  have hKlt : ∀ k : ℕ, ((((k : ℤ) - s) % (v.length : ℤ)).toNat) < v.length := by
    intro k
    rw [Int.toNat_lt (Int.emod_nonneg _ hnz)]
    exact Int.emod_lt_of_pos _ (by exact_mod_cast hn)
  rw [getD_npifft _ (by rw [hW]; exact hj), hW]
  have hWk : ∀ k ∈ Finset.range v.length,
      (nproll (npfft v) 0 s).getD k 0 * Complex.exp (2 * (π : ℂ) * I * j * k / v.length)
      = ∑ m ∈ Finset.range v.length,
          v.getD m 0 * (Complex.exp (2 * (π : ℂ) * I * m * s / v.length) *
            Complex.exp (2 * (π : ℂ) * I * (((j : ℤ) - m : ℤ) : ℂ) * k / v.length)) := by
    intro k hk
    rw [nproll, getD_arrOf _ _ (by rw [length_npfft]; exact Finset.mem_range.mp hk),
      length_npfft, getD_npfft _ (hKlt k), Finset.sum_mul]
    apply Finset.sum_congr rfl
    intro m _
    rw [mul_assoc, cexp_roll_term hn j m k s]
  rw [Finset.sum_congr rfl hWk, Finset.sum_comm]
  have hinner : ∀ m ∈ Finset.range v.length,
      (∑ k ∈ Finset.range v.length,
        v.getD m 0 * (Complex.exp (2 * (π : ℂ) * I * m * s / v.length) *
          Complex.exp (2 * (π : ℂ) * I * (((j : ℤ) - m : ℤ) : ℂ) * k / v.length)))
      = if m = j then v.getD j 0 * Complex.exp (2 * (π : ℂ) * I * j * s / v.length) * v.length
        else 0 := by
    intro m hm
    by_cases hmj : m = j
    · subst hmj
      rw [if_pos rfl]
      have hz : ∀ k : ℕ,
          Complex.exp (2 * (π : ℂ) * I * (((m : ℤ) - m : ℤ) : ℂ) * k / v.length) = 1 := by
        intro k
        simp
      calc ∑ k ∈ Finset.range v.length, v.getD m 0 *
              (Complex.exp (2 * (π : ℂ) * I * m * s / v.length) *
                Complex.exp (2 * (π : ℂ) * I * (((m : ℤ) - m : ℤ) : ℂ) * k / v.length))
          = ∑ _k ∈ Finset.range v.length, v.getD m 0 *
              Complex.exp (2 * (π : ℂ) * I * m * s / v.length) := by
            apply Finset.sum_congr rfl
            intro k _
            rw [hz k, mul_one]
        _ = v.getD m 0 * Complex.exp (2 * (π : ℂ) * I * m * s / v.length) * v.length := by
            rw [Finset.sum_const, Finset.card_range, nsmul_eq_mul]
            ring
    · rw [if_neg hmj]
      have hsum0 : (∑ k ∈ Finset.range v.length,
          Complex.exp (2 * (π : ℂ) * I * (((j : ℤ) - m : ℤ) : ℂ) * k / v.length)) = 0 := by
        have hnd : ¬ (v.length : ℤ) ∣ ((j : ℤ) - m) := by
          intro hdvd
          have habs : |(j : ℤ) - m| < (v.length : ℤ) := by
            rw [abs_lt]
            constructor
            · have : (m : ℤ) < v.length := by
                exact_mod_cast Finset.mem_range.mp hm
              omega
            · have : (j : ℤ) < v.length := by exact_mod_cast hj
              omega
          have := Int.eq_zero_of_abs_lt_dvd hdvd habs
          apply hmj
          have : (m : ℤ) = j := by omega
          exact_mod_cast this
        exact sum_cexp_ne hn hnd
      calc ∑ k ∈ Finset.range v.length, v.getD m 0 *
              (Complex.exp (2 * (π : ℂ) * I * m * s / v.length) *
                Complex.exp (2 * (π : ℂ) * I * (((j : ℤ) - m : ℤ) : ℂ) * k / v.length))
          = v.getD m 0 * Complex.exp (2 * (π : ℂ) * I * m * s / v.length) *
              ∑ k ∈ Finset.range v.length,
                Complex.exp (2 * (π : ℂ) * I * (((j : ℤ) - m : ℤ) : ℂ) * k / v.length) := by
            rw [Finset.mul_sum]
            apply Finset.sum_congr rfl
            intro k _
            ring
        _ = 0 := by rw [hsum0, mul_zero]
  rw [Finset.sum_congr rfl hinner, Finset.sum_ite_eq' (Finset.range v.length) j
    (fun m => v.getD j 0 * Complex.exp (2 * (π : ℂ) * I * j * s / v.length) * v.length)]
  rw [if_pos (Finset.mem_range.mpr hj)]
  field_simp
  ring

theorem list_ext_getD {α : Type} (d : α) {a b : List α} (hl : a.length = b.length)
    (h : ∀ i, i < a.length → a.getD i d = b.getD i d) : a = b := by
  apply List.ext_getElem hl
  intro i h1 h2
  have hi := h i h1
  rwa [List.getD_eq_getElem _ _ h1, List.getD_eq_getElem _ _ h2] at hi

theorem nproll_zero {α : Type} (v : List α) (d : α) : nproll v d 0 = v := by
  apply list_ext_getD d (length_nproll v d 0)
  intro i hi
  rw [length_nproll] at hi
  rw [getD_nproll d 0 hi, sub_zero, Int.emod_eq_of_lt (Int.ofNat_nonneg i) (by exact_mod_cast hi)]
  simp

theorem nproll_nproll {α : Type} (v : List α) (d : α) (a b : ℤ) :
    nproll (nproll v d a) d b = nproll v d (a + b) := by
  by_cases hn : v.length = 0
  · rcases List.length_eq_zero.mp hn with rfl
    simp [nproll, arrOf]
  have hpos : 0 < v.length := Nat.pos_of_ne_zero hn
  have hnz : (v.length : ℤ) ≠ 0 := by exact_mod_cast hn
  apply list_ext_getD d
  · rw [length_nproll, length_nproll, length_nproll]
  intro i hi
  rw [length_nproll, length_nproll] at hi
  have h1 : (nproll (nproll v d a) d b).getD i d
      = (nproll v d a).getD ((((i : ℤ) - b) % ((v.length : ℤ))).toNat) d := by
    have := getD_nproll (v := nproll v d a) d b (i := i) (by rw [length_nproll]; exact hi)
    rwa [length_nproll] at this
  have hKlt : ((((i : ℤ) - b) % (v.length : ℤ)).toNat) < v.length := by
    rw [Int.toNat_lt (Int.emod_nonneg _ hnz)]
    exact Int.emod_lt_of_pos _ (by exact_mod_cast hpos)
  rw [h1, getD_nproll d a hKlt, getD_nproll d (a + b) hi]
  congr 2
  rw [Int.toNat_of_nonneg (Int.emod_nonneg _ hnz)]
  conv_lhs => rw [Int.sub_emod, Int.emod_emod_of_dvd _ dvd_rfl, ← Int.sub_emod]
  congr 1
  ring

/-- `ifft(fft(v)) = v`: the discrete inversion theorem, as the shift `0`
special case of `npifft_nproll_npfft_getD`. -/
theorem npifft_npfft (v : List ℂ) : npifft (npfft v) = v := by
  have h0 : npifft (npfft v) = npifft (nproll (npfft v) 0 0) := by
    rw [nproll_zero]
  rw [h0]
  apply list_ext_getD 0
  · rw [length_npifft, length_nproll, length_npfft]
  intro i hi
  rw [length_npifft, length_nproll, length_npfft] at hi
  rw [npifft_nproll_npfft_getD v 0 hi]
  simp

theorem getD_transferH {wl : List ℝ} (w_0 : ℝ) (m : Material) (d : ℝ) {i : ℕ}
    (hi : i < wl.length) :
    (transferH wl w_0 m d).getD i 0 = H_of (k_of m w_0 (wl.getD i 0)) d := by
  rw [transferH, List.getD_eq_getElem _ _ (by simpa using hi), List.getElem_map,
    List.getD_eq_getElem _ _ hi]

theorem length_transferH (wl : List ℝ) (w_0 : ℝ) (m : Material) (d : ℝ) :
    (transferH wl w_0 m d).length = wl.length := by
  simp [transferH]

theorem getD_zipWith_mul (a b : List ℂ) {i : ℕ} (hia : i < a.length) (hib : i < b.length) :
    (List.zipWith (· * ·) a b).getD i 0 = a.getD i 0 * b.getD i 0 := by
  rw [List.getD_eq_getElem _ _ (by rw [List.length_zipWith]; omega),
    List.getD_eq_getElem _ _ hia, List.getD_eq_getElem _ _ hib]
  exact List.getElem_zipWith

/-- C2: `propagate_material` with a name absent from the materials dict is a
complete no-op: the `KeyError` is caught, no exception escapes, and the whole
state — in particular both output-field arrays — is returned unchanged. -/
theorem propagate_unknown_material_noop (s : PulseState) (name : String) (d : ℝ)
    (h : s.materials name = none) : propagate_material s name d = s :=
  propagate_material_unknown d h

theorem propagate_unknown_material_noop_witness :
    initState.materials "bk7" = none ∧ propagate_material initState "bk7" 0.01 = initState :=
  ⟨rfl, propagate_unknown_material_noop initState "bk7" 0.01 rfl⟩

/-- C10: any `duration_domain` selector other than the exact string
`'temporal'` is treated as the spectral case — the Gaussian time constant is
`0.441·l_0²/(fwhm·c)` and `generate_pulse` behaves exactly as with the
`'spectral'` selector; no validation or rejection of the selector occurs
(`generate_pulse` is total in the selector). -/
theorem generate_pulse_nontemporal_selector (s : PulseState) (fwhm l_0 t_span : ℝ)
    (n? : Option ℕ) (dom : String) (h : dom ≠ "temporal") :
    gauss_tau fwhm l_0 dom = 0.441 * l_0 ^ 2 / (fwhm * c_light) ∧
    generate_pulse s fwhm l_0 t_span n? dom = generate_pulse s fwhm l_0 t_span n? "spectral" := by
  have ht : gauss_tau fwhm l_0 dom = 0.441 * l_0 ^ 2 / (fwhm * c_light) := by
    rw [gauss_tau, if_neg h]
  have ht2 : gauss_tau fwhm l_0 dom = gauss_tau fwhm l_0 "spectral" := by
    rw [ht, gauss_tau, if_neg (by decide)]
  refine ⟨ht, ?_⟩
  simp only [generate_pulse, ht2]

theorem generate_pulse_nontemporal_selector_witness :
    "Spectral" ≠ "temporal" ∧
    (gauss_tau 50e-15 800e-9 "Spectral" = 0.441 * (800e-9 : ℝ) ^ 2 / (50e-15 * c_light) ∧
      generate_pulse initState 50e-15 800e-9 2e-12 none "Spectral"
        = generate_pulse initState 50e-15 800e-9 2e-12 none "spectral") :=
  ⟨by decide, generate_pulse_nontemporal_selector initState 50e-15 800e-9 2e-12 none
    "Spectral" (by decide)⟩

/-- C6 (code bug): on the empty/absent field state (the `np.array([])`
attributes set by `__init__` before any pulse is generated) the three
analyzers that test `size != 0` do return Python `None`, but
`get_spectral_phase` and `get_spectral_phase_expansion` guard with
`if self.E_t_out is not None:` — a test that is always true of an ndarray —
and then fault: `np.argmax` of the empty magnitude array raises
`ValueError` instead of returning `None` as the specification requires. -/
theorem analyzers_on_empty_field_state :
    get_temporal_intensity initState true = none ∧
    get_temporal_phase initState false = none ∧
    get_spectral_intensity initState true = none ∧
    get_spectral_phase initState true = Except.error () ∧
    get_spectral_phase_expansion initState 4 1e12 = Except.error () := by
  refine ⟨rfl, rfl, rfl, rfl, rfl⟩

/-- C1: after a `generate_pulse` and any sequence of `propagate_material`
calls, `reset_propagation` restores the output fields to the reference
fields saved at generation (propagation never touches `E_t`/`E_w`, and the
reset copies them back into `E_t_out`/`E_w_out`), so `get_temporal_intensity`
and `get_spectral_intensity` — which read only the output fields — return
exactly the values they returned immediately after generation. -/
theorem reset_after_propagation_roundtrip (s : PulseState) (fwhm l_0 t_span : ℝ)
    (n? : Option ℕ) (dom : String) (props : List (String × ℝ)) (norm : Bool) :
    (reset_propagation (applyProps (generate_pulse s fwhm l_0 t_span n? dom) props)).E_t_out
        = (generate_pulse s fwhm l_0 t_span n? dom).E_t ∧
    (reset_propagation (applyProps (generate_pulse s fwhm l_0 t_span n? dom) props)).E_w_out
        = (generate_pulse s fwhm l_0 t_span n? dom).E_w ∧
    get_temporal_intensity
        (reset_propagation (applyProps (generate_pulse s fwhm l_0 t_span n? dom) props)) norm
      = get_temporal_intensity (generate_pulse s fwhm l_0 t_span n? dom) norm ∧
    get_spectral_intensity
        (reset_propagation (applyProps (generate_pulse s fwhm l_0 t_span n? dom) props)) norm
      = get_spectral_intensity (generate_pulse s fwhm l_0 t_span n? dom) norm := by
  set g := generate_pulse s fwhm l_0 t_span n? dom with hg
  have hp := applyProps_preserves props g
  have h1 : (reset_propagation (applyProps g props)).E_t_out = g.E_t := hp.1
  have h2 : (reset_propagation (applyProps g props)).E_w_out = g.E_w := hp.2
  have hgt : g.E_t_out = g.E_t := by rw [hg]; rfl
  have hgw : g.E_w_out = g.E_w := by rw [hg]; rfl
  refine ⟨h1, h2, ?_, ?_⟩
  · show intensityOf (reset_propagation (applyProps g props)).E_t_out norm
      = intensityOf g.E_t_out norm
    rw [h1, hgt]
  · show intensityOf (reset_propagation (applyProps g props)).E_w_out norm
      = intensityOf g.E_w_out norm
    rw [h2, hgw]

/-- C3: during `propagate_material` on a known material, every frequency
sample whose refractive-index lookup is undefined (NaN — the absolute
frequency lies outside the interpolant's characterized band) produces a
transfer-function value of exactly `0` (the `H_w[np.isnan(H_w)] = 0`
fix-up), so the corresponding output spectral sample becomes exactly `0`;
since every transfer sample is a well-defined complex number after the
fix-up, no NaN is ever written into `E_w_out`, and `E_t_out` — a finite
linear combination of those samples — is NaN-free as well. -/
theorem propagate_out_of_band_zero (s : PulseState) (name : String) (m : Material)
    (d : ℝ) (i : ℕ) (hm : s.materials name = some m) (hiw : i < s.w.length)
    (hie : i < s.E_w_out.length)
    (hnan : m.lookup (s.w.getD i 0 + s.w_0) = none) :
    (transferH s.w s.w_0 m d).getD i 0 = 0 ∧
    (propagate_material s name d).E_w_out.getD i 0 = 0 := by
  have hH : (transferH s.w s.w_0 m d).getD i 0 = 0 := by
    rw [getD_transferH _ _ _ hiw]
    show H_of ((m.lookup (s.w.getD i 0 + s.w_0)).map
      (fun nv => (s.w.getD i 0 + s.w_0) * nv / c_light)) d = 0
    rw [hnan]
    rfl
  refine ⟨hH, ?_⟩
  rw [propagate_material_known d hm]
  show (List.zipWith (· * ·) (transferH s.w s.w_0 m d) s.E_w_out).getD i 0 = 0
  rw [getD_zipWith_mul _ _ (by rw [length_transferH]; exact hiw) hie, hH, zero_mul]

theorem propagate_out_of_band_zero_witness :
    (st3.materials "m" = some mat3 ∧ 0 < st3.w.length ∧ 0 < st3.E_w_out.length ∧
      mat3.lookup (st3.w.getD 0 0 + st3.w_0) = none) ∧
    ((transferH st3.w st3.w_0 mat3 1.5).getD 0 0 = 0 ∧
      (propagate_material st3 "m" 1.5).E_w_out.getD 0 0 = 0) := by
  have h1 : st3.materials "m" = some mat3 := rfl
  have h2 : (0 : ℕ) < st3.w.length := by decide
  have h3 : (0 : ℕ) < st3.E_w_out.length := by decide
  have h4 : mat3.lookup (st3.w.getD 0 0 + st3.w_0) = none := by
    show mat3.lookup ((0 : ℝ) + 0) = none
    rw [Material.lookup, if_neg]
    rw [add_zero]
    show ¬(mat3.w_min ≤ 0 ∧ (0 : ℝ) ≤ mat3.w_max)
    rw [not_and]
    intro hc
    exact absurd hc (by norm_num [mat3])
  exact ⟨⟨h1, h2, h3, h4⟩, propagate_out_of_band_zero st3 "m" mat3 1.5 0 h1 h2 h3 h4⟩

theorem H_of_mul (k? : Option ℝ) (d1 d2 : ℝ) (e : ℂ) :
    H_of k? d2 * (H_of k? d1 * e) = H_of k? (d1 + d2) * e := by
  cases k? with
  | none => simp [H_of]
  | some k =>
      show Complex.exp (-I * (k : ℂ) * ((d2 : ℝ) : ℂ)) *
          (Complex.exp (-I * (k : ℂ) * ((d1 : ℝ) : ℂ)) * e)
        = Complex.exp (-I * (k : ℂ) * ((d1 + d2 : ℝ) : ℂ)) * e
      rw [show (-I * (k : ℂ) * ((d1 + d2 : ℝ) : ℂ)) = -I * k * d2 + -I * k * d1 by
        push_cast; ring]
      rw [Complex.exp_add]
      ring

theorem zipWith_transferH_comp (wl : List ℝ) (w0 : ℝ) (m : Material) (d1 d2 : ℝ) :
    ∀ E : List ℂ,
      List.zipWith (· * ·) (transferH wl w0 m d2)
          (List.zipWith (· * ·) (transferH wl w0 m d1) E)
        = List.zipWith (· * ·) (transferH wl w0 m (d1 + d2)) E := by
  induction wl with
  | nil => intro E; simp [transferH]
  | cons wi wl ih =>
      intro E
      cases E with
      | nil => simp [transferH]
      | cons e E' =>
          simp only [transferH, List.map_cons, List.zipWith_cons_cons] at *
          rw [H_of_mul]
          exact congrArg _ (ih E')

/-- C4: propagating thickness `d1` then `d2` of the same known material
equals a single propagation of `d1 + d2` — exact state equality in the
real-arithmetic model, since the per-sample transfer factors satisfy
`e^{-ik·d2}·e^{-ik·d1} = e^{-ik·(d1+d2)}` (and `0·0 = 0` on the
out-of-band samples), and the output time-domain field is recomputed from
the identical spectrum. -/
theorem propagate_thickness_additive (s : PulseState) (name : String) (m : Material)
    (d1 d2 : ℝ) (hm : s.materials name = some m) :
    propagate_material (propagate_material s name d1) name d2
      = propagate_material s name (d1 + d2) := by
  have h1 := propagate_material_known d1 hm
  have hm1 : (propagate_material s name d1).materials name = some m := by
    rw [h1]; exact hm
  rw [propagate_material_known d2 hm1, propagate_material_known (d1 + d2) hm, h1]
  have hE : List.zipWith (· * ·) (transferH s.w s.w_0 m d2)
        (List.zipWith (· * ·) (transferH s.w s.w_0 m d1) s.E_w_out)
      = List.zipWith (· * ·) (transferH s.w s.w_0 m (d1 + d2)) s.E_w_out :=
    zipWith_transferH_comp s.w s.w_0 m d1 d2 s.E_w_out
  show ({ s with
      E_w_out := List.zipWith (· * ·) (transferH s.w s.w_0 m d2)
        (List.zipWith (· * ·) (transferH s.w s.w_0 m d1) s.E_w_out)
      E_t_out := npifft (fftshift (List.zipWith (· * ·) (transferH s.w s.w_0 m d2)
        (List.zipWith (· * ·) (transferH s.w s.w_0 m d1) s.E_w_out)) 0) } : PulseState)
    = { s with
        E_w_out := List.zipWith (· * ·) (transferH s.w s.w_0 m (d1 + d2)) s.E_w_out
        E_t_out := npifft (fftshift (List.zipWith (· * ·)
          (transferH s.w s.w_0 m (d1 + d2)) s.E_w_out) 0) }
  rw [hE]

theorem propagate_thickness_additive_witness :
    st3.materials "m" = some mat3 ∧
    propagate_material (propagate_material st3 "m" 1) "m" 2
      = propagate_material st3 "m" (1 + 2) :=
  ⟨rfl, propagate_thickness_additive st3 "m" mat3 1 2 rfl⟩

theorem nproll_length_self {α : Type} (v : List α) (d : α) :
    nproll v d (v.length : ℤ) = v := by
  apply list_ext_getD d (length_nproll v d _)
  intro i hi
  rw [length_nproll] at hi
  rw [getD_nproll d _ hi, Int.sub_emod, Int.emod_self, sub_zero,
    Int.emod_emod_of_dvd _ dvd_rfl,
    Int.emod_eq_of_lt (Int.ofNat_nonneg i) (by exact_mod_cast hi)]
  simp

theorem getD_map_of_lt {α β : Type} (f : α → β) (l : List α) (d : α) (d' : β) {i : ℕ}
    (h : i < l.length) : (l.map f).getD i d' = f (l.getD i d) := by
  rw [List.getD_eq_getElem _ _ (by simpa using h), List.getElem_map,
    List.getD_eq_getElem _ _ h]

/-- For an even number of samples, two centered reorderings cancel and the
unnormalized inversion applies: `ifft(fftshift(fftshift(fft E))) = E`. -/
theorem fourier_pair_even (E : List ℂ) (he : E.length % 2 = 0) :
    E = npifft (fftshift (fftshift (npfft E) 0) 0) := by
  rw [fftshift, fftshift, length_nproll, length_npfft, nproll_nproll]
  have h2 : ((E.length : ℤ) / 2) + ((E.length : ℤ) / 2) = (E.length : ℤ) := by
    omega
  rw [h2, show (E.length : ℤ) = ((npfft E).length : ℤ) by rw [length_npfft],
    nproll_length_self, npifft_npfft]

/-- C5 (amended): the stored output fields are a Fourier-transform pair —
`E_t_out = ifft(fftshift(E_w_out))` — after every `propagate_material` call
on a known material (unconditionally: line 243 recomputes `E_t_out` from
`E_w_out`), and after `generate_pulse` provided the sample count is even
(as the default 8192 is), since only then do the two centered reorderings
`fftshift` cancel; for an odd count the relation fails after generation
(see the counterexample). -/
theorem output_fields_fourier_pair :
    (∀ (s : PulseState) (name : String) (m : Material) (d : ℝ),
      s.materials name = some m →
        (propagate_material s name d).E_t_out
          = npifft (fftshift (propagate_material s name d).E_w_out 0)) ∧
    (∀ (s : PulseState) (fwhm l_0 t_span : ℝ) (n? : Option ℕ) (dom : String),
      (n?.getD s.N) % 2 = 0 →
        (generate_pulse s fwhm l_0 t_span n? dom).E_t_out
          = npifft (fftshift (generate_pulse s fwhm l_0 t_span n? dom).E_w_out 0)) := by
  constructor
  · intro s name m d hm
    rw [propagate_material_known d hm]
  · intro s fwhm l_0 t_span n? dom heven
    show (linspace (-t_span / 2) (t_span / 2) (n?.getD s.N)).map
        (fun tj => ((Real.exp (-tj ^ 2 / (gauss_tau fwhm l_0 dom) ^ 2 + 0) : ℝ) : ℂ))
      = npifft (fftshift (fftshift (npfft ((linspace (-t_span / 2) (t_span / 2) (n?.getD s.N)).map
          (fun tj => ((Real.exp (-tj ^ 2 / (gauss_tau fwhm l_0 dom) ^ 2 + 0) : ℝ) : ℂ)))) 0) 0)
    apply fourier_pair_even
    rw [List.length_map, linspace, length_arrOf]
    exact heven

theorem output_fields_fourier_pair_witness :
    (st3.materials "m" = some mat3 ∧
      (propagate_material st3 "m" 1).E_t_out
        = npifft (fftshift (propagate_material st3 "m" 1).E_w_out 0)) ∧
    (((some 2).getD initState.N) % 2 = 0 ∧
      (generate_pulse initState 1 1 1 (some 2) "temporal").E_t_out
        = npifft (fftshift (generate_pulse initState 1 1 1 (some 2) "temporal").E_w_out 0)) :=
  ⟨⟨rfl, output_fields_fourier_pair.1 st3 "m" mat3 1 rfl⟩,
   ⟨rfl, output_fields_fourier_pair.2 initState 1 1 1 (some 2) "temporal" rfl⟩⟩

/-- C5 (counterexample): after `generate_pulse` with the odd sample count
`n = 3`, the stored outputs are **not** a Fourier-transform pair: the double
`fftshift` is a one-sample rotation for odd `n`, so the center sample picks
up the phase factor `e^{4πi/3} ≠ 1`.  This refutes the claim as stated,
which asserts the invariant after every `generate_pulse`. -/
theorem generate_pulse_odd_fourier_pair_fails :
    ¬ ((generate_pulse initState 1 1 1 (some 3) "temporal").E_t_out
        = npifft (fftshift (generate_pulse initState 1 1 1 (some 3) "temporal").E_w_out 0)) := by
  intro hEq
  have h1 : (linspace (-(1 : ℝ) / 2) ((1 : ℝ) / 2) 3).map
        (fun tj => ((Real.exp (-tj ^ 2 / (gauss_tau 1 1 "temporal") ^ 2 + 0) : ℝ) : ℂ))
      = npifft (fftshift (fftshift (npfft ((linspace (-(1 : ℝ) / 2) ((1 : ℝ) / 2) 3).map
          (fun tj => ((Real.exp (-tj ^ 2 / (gauss_tau 1 1 "temporal") ^ 2 + 0) : ℝ) : ℂ)))) 0) 0) :=
    hEq
  set Et3 : List ℂ := (linspace (-(1 : ℝ) / 2) ((1 : ℝ) / 2) 3).map
    (fun tj => ((Real.exp (-tj ^ 2 / (gauss_tau 1 1 "temporal") ^ 2 + 0) : ℝ) : ℂ)) with hEt3
  have hlen : Et3.length = 3 := by
    rw [hEt3, List.length_map, linspace, length_arrOf]
  rw [fftshift, fftshift, length_nproll, length_npfft, hlen, nproll_nproll] at h1
  have hsh : (((3 : ℕ) : ℤ) / 2 + ((3 : ℕ) : ℤ) / 2) = (2 : ℤ) := by norm_num
  rw [hsh] at h1
  have h2 := congrArg (fun l : List ℂ => l.getD 1 0) h1
  simp only at h2
  rw [npifft_nproll_npfft_getD Et3 2 (by rw [hlen]; norm_num), hlen] at h2
  have hmid : Et3.getD 1 0 = 1 := by
    rw [hEt3, getD_map_of_lt _ _ 0 _ (by rw [linspace, length_arrOf]; norm_num),
      linspace, getD_arrOf _ _ (by norm_num)]
    norm_num
  rw [hmid, mul_one] at h2
  have h3 : Complex.exp (2 * (π : ℂ) * I * ((1 : ℕ) : ℂ) * ((2 : ℤ) : ℂ) / ((3 : ℕ) : ℂ))
      = Complex.exp ((2 * (π : ℂ) * I) * (2 / 3)) := by
    congr 1
    push_cast
    ring
  rw [h3] at h2
  obtain ⟨t, ht⟩ := Complex.exp_eq_one_iff.mp h2.symm
  have hpi : ((π : ℝ) : ℂ) ≠ 0 := Complex.ofReal_ne_zero.mpr Real.pi_ne_zero
  have h2pi : (2 : ℂ) * π * I ≠ 0 := by
    simp [hpi, Complex.I_ne_zero]
  have hct : ((2 : ℂ) / 3) = (t : ℂ) := by
    apply mul_left_cancel₀ h2pi
    rw [ht]
    ring
  have h32 : (2 : ℂ) = 3 * t := by
    rw [← hct]
    norm_num
  have : (2 : ℤ) = 3 * t := by exact_mod_cast h32
  omega

/-- C9 (amended): after `generate_pulse`, the stored time grid has `N`
evenly spaced samples running from `-t_span/2` to `+t_span/2` inclusive
and symmetric about zero, but — being `np.linspace` with endpoints — its
sample spacing is `t_span/(N-1)` (for `N ≥ 2`), not `t_span/N`; the
stored `dt` attribute is `t_span/N`, which differs from the actual grid
spacing (see the counterexample). -/
theorem generate_time_grid (s : PulseState) (fwhm l_0 t_span : ℝ) (n? : Option ℕ)
    (dom : String) (k : ℕ) (hn : 2 ≤ n?.getD s.N) (hk : k + 1 < n?.getD s.N) :
    (generate_pulse s fwhm l_0 t_span n? dom).t.length = n?.getD s.N ∧
    (generate_pulse s fwhm l_0 t_span n? dom).t.getD 0 0 = -t_span / 2 ∧
    (generate_pulse s fwhm l_0 t_span n? dom).t.getD (n?.getD s.N - 1) 0 = t_span / 2 ∧
    (generate_pulse s fwhm l_0 t_span n? dom).t.getD (k + 1) 0
        - (generate_pulse s fwhm l_0 t_span n? dom).t.getD k 0
      = t_span / ((n?.getD s.N : ℝ) - 1) ∧
    (generate_pulse s fwhm l_0 t_span n? dom).t.getD (n?.getD s.N - 1 - k) 0
      = -(generate_pulse s fwhm l_0 t_span n? dom).t.getD k 0 ∧
    (generate_pulse s fwhm l_0 t_span n? dom).dt = t_span / (n?.getD s.N : ℝ) := by
  set n := n?.getD s.N with hndef
  have hgt : (generate_pulse s fwhm l_0 t_span n? dom).t
      = linspace (-t_span / 2) (t_span / 2) n := rfl
  have hn1 : ¬ (n ≤ 1) := by omega
  have hcast : ((n : ℝ) - 1) ≠ 0 := by
    have : (2 : ℝ) ≤ (n : ℝ) := by exact_mod_cast hn
    nlinarith
  have hval : ∀ i : ℕ, i < n →
      (linspace (-t_span / 2) (t_span / 2) n).getD i 0
        = -t_span / 2 + i * (t_span / ((n : ℝ) - 1)) := by
    intro i hi
    rw [linspace, getD_arrOf _ _ hi, if_neg hn1]
    ring_nf
  refine ⟨?_, ?_, ?_, ?_, ?_, ?_⟩
  · rw [hgt, linspace, length_arrOf]
  · rw [hgt, hval 0 (by omega)]
    norm_num
  · rw [hgt, hval (n - 1) (by omega)]
    have : ((n - 1 : ℕ) : ℝ) = (n : ℝ) - 1 := by
      push_cast [Nat.cast_sub (by omega : 1 ≤ n)]
      ring
    rw [this]
    field_simp
    ring
  · rw [hgt, hval (k + 1) hk, hval k (by omega)]
    push_cast
    ring
  · rw [hgt, hval (n - 1 - k) (by omega), hval k (by omega)]
    have : ((n - 1 - k : ℕ) : ℝ) = (n : ℝ) - 1 - k := by
      have h1 : k ≤ n - 1 := by omega
      have h2 : 1 ≤ n := by omega
      push_cast [Nat.cast_sub h1, Nat.cast_sub h2]
      ring
    rw [this]
    field_simp
    ring
  · rfl

theorem generate_time_grid_witness :
    (2 ≤ (some 4 : Option ℕ).getD initState.N ∧ 0 + 1 < (some 4 : Option ℕ).getD initState.N) ∧
    ((generate_pulse initState 1 1 1 (some 4) "temporal").t.length
        = (some 4 : Option ℕ).getD initState.N ∧
      (generate_pulse initState 1 1 1 (some 4) "temporal").t.getD 0 0 = -(1 : ℝ) / 2 ∧
      (generate_pulse initState 1 1 1 (some 4) "temporal").t.getD
          ((some 4 : Option ℕ).getD initState.N - 1) 0 = (1 : ℝ) / 2 ∧
      (generate_pulse initState 1 1 1 (some 4) "temporal").t.getD (0 + 1) 0
          - (generate_pulse initState 1 1 1 (some 4) "temporal").t.getD 0 0
        = (1 : ℝ) / (((some 4 : Option ℕ).getD initState.N : ℝ) - 1) ∧
      (generate_pulse initState 1 1 1 (some 4) "temporal").t.getD
          ((some 4 : Option ℕ).getD initState.N - 1 - 0) 0
        = -(generate_pulse initState 1 1 1 (some 4) "temporal").t.getD 0 0 ∧
      (generate_pulse initState 1 1 1 (some 4) "temporal").dt
        = (1 : ℝ) / (((some 4 : Option ℕ).getD initState.N : ℝ))) :=
  ⟨⟨by decide, by decide⟩,
    generate_time_grid initState 1 1 1 (some 4) "temporal" 0 (by decide) (by decide)⟩

/-- C9 (counterexample): for `generate_pulse` with `t_span = 1`, `n = 2`
the stored grid is `[-1/2, 1/2]`, whose sample spacing is `1`, while the
claim's `t_span/N` is `1/2` — `np.linspace` includes both endpoints, so the
spacing is `t_span/(N-1)`, refuting the claim as stated. -/
theorem generate_time_grid_spacing_fails :
    ¬ ((generate_pulse initState 1 1 1 (some 2) "temporal").t.getD 1 0
        - (generate_pulse initState 1 1 1 (some 2) "temporal").t.getD 0 0
      = (generate_pulse initState 1 1 1 (some 2) "temporal").t_span
          / ((generate_pulse initState 1 1 1 (some 2) "temporal").N : ℝ)) := by
  intro h
  have h1 : (generate_pulse initState 1 1 1 (some 2) "temporal").t.getD 1 0 = 1 / 2 := by
    show (linspace (-(1 : ℝ) / 2) ((1 : ℝ) / 2) 2).getD 1 0 = 1 / 2
    rw [linspace, getD_arrOf _ _ (by norm_num)]
    norm_num
  have h0 : (generate_pulse initState 1 1 1 (some 2) "temporal").t.getD 0 0 = -(1 / 2) := by
    show (linspace (-(1 : ℝ) / 2) ((1 : ℝ) / 2) 2).getD 0 0 = -(1 / 2)
    rw [linspace, getD_arrOf _ _ (by norm_num)]
    norm_num
  have ht : (generate_pulse initState 1 1 1 (some 2) "temporal").t_span = 1 := rfl
  have hN : (generate_pulse initState 1 1 1 (some 2) "temporal").N = 2 := rfl
  rw [h1, h0, ht, hN] at h
  norm_num at h

/-- The pulse-duration rule as the specification words it: collect the
sample indices where the normalized intensity trace minus one half changes
sign between adjacent samples; with at least two crossings the duration is
the axis difference between the last and the first crossing, otherwise the
result is undefined (NaN). -/
def fwhmSpec (Iv x : List ℝ) : Option ℝ :=
  let cross := (List.range (Iv.length - 1)).filter
    (fun i => npsign (Iv.getD (i + 1) 0 - 0.5) ≠ npsign (Iv.getD i 0 - 0.5))
  if 1 < cross.length then
    some (x.getD (cross.getLastD 0) 0 - x.getD (cross.headD 0) 0)
  else none

/-- C7: `get_pulse_duration(domain)` takes the normalized intensity trace
of the chosen domain and the matching axis (`get_t`/`get_w`), marks the
indices where `I - 0.5` changes sign (the nonzero entries of
`np.diff(np.sign(I - 0.5))` are exactly the adjacent sign changes), and
returns the axis difference between the last and the first crossing, or
NaN (`none`) when fewer than two crossings exist. -/
theorem get_pulse_duration_spec (s : PulseState) (domain : String) :
    get_pulse_duration s domain =
      match (if domain = "temporal" then get_temporal_intensity s true
             else get_spectral_intensity s true) with
      | none => Except.error ()
      | some Iv =>
          Except.ok (fwhmSpec Iv (if domain = "temporal" then get_t s else get_w s)) := by
  rw [get_pulse_duration]
  cases hI : (if domain = "temporal" then get_temporal_intensity s true
              else get_spectral_intensity s true) with
  | none => rfl
  | some Iv =>
      have hfilter : (List.range (npdiff (Iv.map (fun v => npsign (v - 0.5)))).length).filter
            (fun i => (npdiff (Iv.map (fun v => npsign (v - 0.5)))).getD i 0 ≠ 0)
          = (List.range (Iv.length - 1)).filter
            (fun i => npsign (Iv.getD (i + 1) 0 - 0.5) ≠ npsign (Iv.getD i 0 - 0.5)) := by
        have hlen : (npdiff (Iv.map (fun v => npsign (v - 0.5)))).length = Iv.length - 1 := by
          rw [length_npdiff, List.length_map]
        rw [hlen]
        apply List.filter_congr
        intro i hi
        have hi' : i < Iv.length - 1 := List.mem_range.mp hi
        have hgd : (npdiff (Iv.map (fun v => npsign (v - 0.5)))).getD i 0
            = npsign (Iv.getD (i + 1) 0 - 0.5) - npsign (Iv.getD i 0 - 0.5) := by
          rw [getD_npdiff (by rw [List.length_map]; exact hi'),
            getD_map_of_lt _ _ 0 _ (by omega), getD_map_of_lt _ _ 0 _ (by omega)]
        simp only [hgd]
        simp [sub_ne_zero]
      simp only [fwhmSpec, hfilter]
      split <;> rfl

/-- The unwrap rule as the specification words it, in closed form: sample
`j` of the corrected phase equals the raw sample plus `2π` for every jump
index `i` before it (`i + 1 ≤ j`) whose original adjacent difference is
negative, minus `2π` for every such index whose difference is positive —
the jump set being the indices where the magnitude of the original
adjacent difference exceeds 5 radians. -/
def specUnwrap (ph : List ℝ) : List ℝ :=
  arrOf ph.length (fun j => ph.getD j 0
    + 2 * π * (((bigJumps ph).filter
        (fun i => i + 1 ≤ j ∧ (npdiff ph).getD i 0 < 0)).length : ℝ)
    - 2 * π * (((bigJumps ph).filter
        (fun i => i + 1 ≤ j ∧ ¬ (npdiff ph).getD i 0 < 0)).length : ℝ))

theorem unwrapStep_length (d : List ℝ) (acc : List ℝ) (a : ℕ) :
    (unwrapStep d acc a).length = acc.length := by
  rw [unwrapStep]
  split <;> rw [length_arrOf]

theorem unwrapStep_getD (d : List ℝ) (acc : List ℝ) (a : ℕ) {j : ℕ} (hj : j < acc.length) :
    (unwrapStep d acc a).getD j 0
      = acc.getD j 0 + (if a + 1 ≤ j then (if d.getD a 0 < 0 then 2 * π else -(2 * π)) else 0) := by
  rw [unwrapStep]
  split
  · rw [getD_arrOf _ _ hj]
    split <;> simp_all [sub_eq_add_neg]
  · rw [getD_arrOf _ _ hj]
    split <;> simp_all [sub_eq_add_neg]

theorem unwrapStep_foldl (d : List ℝ) (L : List ℕ) :
    ∀ acc : List ℝ,
      (L.foldl (unwrapStep d) acc).length = acc.length ∧
      ∀ j, j < acc.length →
        (L.foldl (unwrapStep d) acc).getD j 0
          = acc.getD j 0
            + 2 * π * ((L.filter (fun i => i + 1 ≤ j ∧ d.getD i 0 < 0)).length : ℝ)
            - 2 * π * ((L.filter (fun i => i + 1 ≤ j ∧ ¬ d.getD i 0 < 0)).length : ℝ) := by
  induction L with
  | nil =>
      intro acc
      refine ⟨rfl, ?_⟩
      intro j _
      simp
  | cons a L ih =>
      intro acc
      obtain ⟨ihlen, ihval⟩ := ih (unwrapStep d acc a)
      refine ⟨?_, ?_⟩
      · rw [List.foldl_cons, ihlen, unwrapStep_length]
      · intro j hj
        rw [List.foldl_cons, ihval j (by rw [unwrapStep_length]; exact hj),
          unwrapStep_getD d acc a hj]
        rw [List.filter_cons, List.filter_cons]
        simp only [decide_eq_true_eq]
        by_cases hle : a + 1 ≤ j <;> by_cases hneg : d.getD a 0 < 0
        · rw [if_pos hle, if_pos hneg, if_pos (⟨hle, hneg⟩ : a + 1 ≤ j ∧ d.getD a 0 < 0),
            if_neg (fun hc : a + 1 ≤ j ∧ ¬ d.getD a 0 < 0 => hc.2 hneg)]
          simp only [List.length_cons]
          push_cast
          ring
        · rw [if_pos hle, if_neg hneg,
            if_neg (fun hc : a + 1 ≤ j ∧ d.getD a 0 < 0 => hneg hc.2),
            if_pos (⟨hle, hneg⟩ : a + 1 ≤ j ∧ ¬ d.getD a 0 < 0)]
          simp only [List.length_cons]
          push_cast
          ring
        · rw [if_neg hle,
            if_neg (fun hc : a + 1 ≤ j ∧ d.getD a 0 < 0 => hle hc.1),
            if_neg (fun hc : a + 1 ≤ j ∧ ¬ d.getD a 0 < 0 => hle hc.1)]
          ring
        · rw [if_neg hle,
            if_neg (fun hc : a + 1 ≤ j ∧ d.getD a 0 < 0 => hle hc.1),
            if_neg (fun hc : a + 1 ≤ j ∧ ¬ d.getD a 0 < 0 => hle hc.1)]
          ring

/-- C8: the 2π-unwrap loop shared by `get_temporal_phase` and
`get_spectral_phase` (both call `unwrap` on the raw `np.angle` samples)
behaves as specified: using the adjacent differences of the original,
pre-correction phase array, every index whose difference magnitude exceeds
5 radians contributes `+2π` to all subsequent samples when the jump is
negative and `-2π` when it is positive — in closed form, sample `j` gains
`2π·(#negative jumps before j − #positive jumps before j)`. -/
theorem unwrap_eq_specUnwrap (ph : List ℝ) : unwrap ph = specUnwrap ph := by
  obtain ⟨hlen, hval⟩ := unwrapStep_foldl (npdiff ph) (bigJumps ph) ph
  apply list_ext_getD 0
  · rw [unwrap, hlen, specUnwrap, length_arrOf]
  intro j hj
  have hj' : j < ph.length := by
    rw [unwrap, hlen] at hj
    exact hj
  rw [unwrap, hval j hj', specUnwrap, getD_arrOf _ _ hj']
